import Mathlib

/-!
Verification of the AABB tree implementation (src/aabbtree.py).

The embedding below translates the two Python classes of the source file:

* `AABB` — an axis-aligned bounding box.  The Python attribute `limits`
  is either `None` (the empty box `AABB()`) or a list of per-dimension
  `(lower, upper)` pairs; coordinates are modelled as rationals, matching
  the exact arithmetic of Python numbers on the operations the code uses
  (`min`, `max`, `+`, `-`, `*`, comparisons).
* `AABBTree` — a binary tree node with fields `aabb`, `value`, `left`,
  `right`.  In every state reachable through the public interface the two
  children are either both absent (a leaf) or both present (an internal
  node): `AABBTree.add` always creates both children together, and
  `is_leaf` is defined as both being `None`.  The embedding therefore has
  the two constructors `node0` (both children `None`) and `node2` (both
  children present).

Python exceptions (the `TypeError` raised by iterating a box whose
`limits` is `None`, and the failing `assert` statements of
`AABB.__init__`) are modelled by `Option`/`none` results.
-/

/-- Python class `AABB` (src/aabbtree.py lines 7-150).  `limits = none`
models the Python attribute value `None` (the empty box `AABB()`). -/
structure AABB where
  limits : Option (List (ℚ × ℚ))
deriving DecidableEq

/-- The empty box `AABB()` (default construction, `limits=None`). -/
def AABB.empty : AABB := ⟨none⟩

/-- `AABB.__eq__` (src/aabbtree.py lines 56-71) on two box operands:
both `None` limits are equal, `None` differs from non-`None`, otherwise
the lengths must agree and each pair of bounds must agree componentwise
(the source loops over `enumerate(self)` and compares `lims1[0]`,
`lims1[1]` with `aabb[i]`). -/
def AABB.beq (a b : AABB) : Bool :=
  match a.limits, b.limits with
  | none, none => true
  | none, some _ => false
  | some _, none => false
  | some l1, some l2 =>
    decide (l1.length = l2.length) &&
    (List.zip l1 l2).all (fun p => decide (p.1.1 = p.2.1) && decide (p.1.2 = p.2.2))

/-- `AABB.merge` (src/aabbtree.py lines 76-101): if both boxes are empty
the result is empty; if exactly one is empty the result is a box built
from the limits of the other (`cls(aabb2.limits)`); otherwise the limits
are zipped taking `min` of lower and `max` of upper bounds (`zip`
truncates at the shorter list, as in Python). -/
def AABB.merge (a b : AABB) : AABB :=
  match a.limits, b.limits with
  | none, none => ⟨none⟩
  | none, some l2 => ⟨some l2⟩
  | some l1, none => ⟨some l1⟩
  | some l1, some l2 =>
    ⟨some (List.zipWith (fun p q => (min p.1 q.1, max p.2 q.2)) l1 l2)⟩

/-- The `perimeter` computation of `AABB.perimeter` (src/aabbtree.py
lines 103-132) on a concrete limits list: `0` in one dimension,
otherwise `2 * Σ_i Π_{j ≠ i} side_j` computed by the same two nested
loops as the source (`p_edge` starts at `1` and skips `j = i`). -/
def perimOf (l : List (ℚ × ℚ)) : ℚ :=
  if l.length = 1 then 0
  else
    2 * (List.range (l.map (fun p => p.2 - p.1)).length).foldl
      (fun acc i =>
        acc + (List.range (l.map (fun p => p.2 - p.1)).length).foldl
          (fun pe j => if j ≠ i then pe * (l.map (fun p => p.2 - p.1)).getD j 0 else pe) 1)
      0

/-- `AABB.perimeter` (src/aabbtree.py lines 103-132).  On the empty box
the source raises `TypeError` (`len(None)`); that case is never reached
by `AABBTree.add` on any insertion sequence, because the empty-box guard
of `add` fires first, so the value returned here for `none` is
irrelevant junk (`0`). -/
def AABB.perimeter (a : AABB) : ℚ :=
  match a.limits with
  | some l => perimOf l
  | none => 0

/-- The loop of `AABB.overlaps` (src/aabbtree.py lines 143-150) over two
concrete limits lists: `zip` truncates at the shorter list, each
dimension checks `max1 >= min2 and min1 <= max2`, and the first failing
dimension returns `False`. -/
def overlapsCore : List (ℚ × ℚ) → List (ℚ × ℚ) → Bool
  | [], _ => true
  | _ :: _, [] => true
  | p1 :: t1, p2 :: t2 =>
    if p1.2 ≥ p2.1 ∧ p1.1 ≤ p2.2 then overlapsCore t1 t2 else false

/-- `AABB.overlaps` (src/aabbtree.py lines 134-150).  `none` models the
`TypeError` the source raises when iteration reaches a box whose
`limits` is `None` (`__next__` calls `len(self)`, i.e. `len(None)`):
that happens whenever `self` is empty, and whenever `self` has at least
one dimension and the argument is empty (with zero dimensions the zip
stops before touching the argument and the loop body never runs). -/
def AABB.overlaps (a b : AABB) : Option Bool :=
  match a.limits with
  | none => none
  | some l1 =>
    match b.limits with
    | none => if l1.isEmpty then some true else none
    | some l2 => some (overlapsCore l1 l2)

/-- `AABB.__init__` (src/aabbtree.py lines 20-27).  The argument is
`none` for the default `limits=None`, otherwise the raw list of interval
bound lists the caller supplies.  Each supplied interval is validated by
`assert len(lims) == 2` and `assert lims[0] <= lims[1]`; a failing
assert aborts the construction with no box produced (modelled as
`none`).  On success the two bounds of each interval become the pair
stored in `limits`. -/
def AABB.construct : Option (List (List ℚ)) → Option AABB
  | none => some ⟨none⟩
  | some ls =>
    if ls.all (fun l => decide (l.length = 2) && decide (l.getD 0 0 ≤ l.getD 1 0)) then
      some ⟨some (ls.map (fun l => (l.getD 0 0, l.getD 1 0)))⟩
    else none

/-- Python class `AABBTree` (src/aabbtree.py lines 153-329).  A node
holds `aabb`, `value` and the two optional children; `node0` is a node
with `left = right = None`, `node2` a node with both children present.
One-sided nodes are never created by the implementation (`add` always
assigns `left` and `right` together) and `is_leaf` (lines 232-235)
checks both children, so the reachable state space is exactly these two
shapes. -/
inductive AABBTree (α : Type) : Type where
  | node0 (aabb : AABB) (value : Option α) : AABBTree α
  | node2 (aabb : AABB) (value : Option α) (left right : AABBTree α) : AABBTree α
deriving DecidableEq

/-- The `aabb` attribute of a node. -/
def AABBTree.aabb {α : Type} : AABBTree α → AABB
  | .node0 a _ => a
  | .node2 a _ _ _ => a

/-- The `value` attribute of a node. -/
def AABBTree.value {α : Type} : AABBTree α → Option α
  | .node0 _ v => v
  | .node2 _ v _ _ => v

/-- `AABBTree.is_leaf` (src/aabbtree.py lines 232-235): true iff both
children are `None`. -/
def AABBTree.is_leaf {α : Type} : AABBTree α → Bool
  | .node0 _ _ => true
  | .node2 _ _ _ _ => false

/-- The default construction `AABBTree()` (src/aabbtree.py line 169):
empty box, no value, no children — the uninitialized root. -/
def AABBTree.mkEmpty {α : Type} : AABBTree α := .node0 AABB.empty none

/-- `AABBTree.add` (src/aabbtree.py lines 237-281), as a function from
the old tree to the new tree (the source mutates `self` in place).
First branch: `self.aabb == AABB()` overwrites `aabb` and `value`,
leaving the children untouched.  Leaf branch: `self` is deep-copied into
the new left child (at that moment `self` still has no children), a new
leaf becomes the right child, `aabb` becomes the merge and `value` is
cleared.  Internal branch: the cost heuristic of lines 257-271 picks
between splitting at this node (lines 274-276) and recursing into the
cheaper child (ties to the right, lines 277-280); afterwards line 281
recomputes `aabb` as the merge of the children boxes (in the split
branch the children boxes are the old `aabb` and the inserted box). -/
def AABBTree.add {α : Type} : AABBTree α → AABB → Option α → AABBTree α
  | .node0 a v, b, val =>
    if AABB.beq a AABB.empty then .node0 b val
    else .node2 (AABB.merge a b) none (.node0 a v) (.node0 b val)
  | .node2 a v l r, b, val =>
    if AABB.beq a AABB.empty then .node2 b val l r
    else
      let tree_p := a.perimeter
      let tree_merge_p := (AABB.merge a b).perimeter
      let new_parent_cost := 2 * tree_merge_p
      let min_pushdown_cost := 2 * (tree_merge_p - tree_p)
      let left_merge_p := (AABB.merge l.aabb b).perimeter
      let cost_left :=
        if !l.is_leaf then left_merge_p + min_pushdown_cost - l.aabb.perimeter
        else left_merge_p + min_pushdown_cost
      let right_merge_p := (AABB.merge r.aabb b).perimeter
      let cost_right :=
        if !r.is_leaf then right_merge_p + min_pushdown_cost - r.aabb.perimeter
        else right_merge_p + min_pushdown_cost
      if new_parent_cost < min cost_left cost_right then
        .node2 (AABB.merge a b) none (.node2 a v l r) (.node0 b val)
      else if cost_left < cost_right then
        let l2 := l.add b val
        .node2 (AABB.merge l2.aabb r.aabb) v l2 r
      else
        let r2 := r.add b val
        .node2 (AABB.merge l.aabb r2.aabb) v l r2

/-- `AABBTree.does_overlap` (src/aabbtree.py lines 283-305).  A leaf
tests its own box; an internal node first tests both child boxes against
the query, then recurses into the left child only if its box overlapped,
short-circuiting on the first `True`, then likewise into the right
child.  `none` propagates the `TypeError` of an overlap test on an
empty box. -/
def AABBTree.does_overlap {α : Type} : AABBTree α → AABB → Option Bool
  | .node0 a _, q => AABB.overlaps a q
  | .node2 _ _ l r, q => do
    let lo ← AABB.overlaps l.aabb q
    let ro ← AABB.overlaps r.aabb q
    if lo then
      let lb ← l.does_overlap q
      if lb then pure true
      else if ro then r.does_overlap q else pure false
    else if ro then r.does_overlap q
    else pure false

/-- `AABBTree.overlap_values` (src/aabbtree.py lines 307-329).  A leaf
contributes `[self.value]` when `self.does_overlap(aabb)` holds and `[]`
otherwise; an internal node concatenates the recursive results of the
children whose boxes overlap the query (left first, then right).
`none` propagates the `TypeError` of an overlap test on an empty box. -/
def AABBTree.overlap_values {α : Type} : AABBTree α → AABB → Option (List (Option α))
  | .node0 a v, q => do
    let c ← AABBTree.does_overlap (.node0 a v) q
    if c then pure [v] else pure []
  | .node2 _ _ l r, q => do
    let lo ← AABB.overlaps l.aabb q
    let lvs ← if lo then l.overlap_values q else pure (α := List (Option α)) []
    let ro ← AABB.overlaps r.aabb q
    let rvs ← if ro then r.overlap_values q else pure []
    pure (lvs ++ rvs)

/-- `AABBTree.__eq__` (src/aabbtree.py lines 217-227), allowing the two
trees to carry payloads of different types (Python payloads are
untyped).  The source returns `False` when the boxes differ, `False`
when `is_leaf` differs (which covers the two mixed arms below), and
otherwise compares `left == left and right == right`, where for two
leaves both comparisons are `None == None`, i.e. `True`.  The `value`
fields are never consulted. -/
def AABBTree.beq {α β : Type} : AABBTree α → AABBTree β → Bool
  | .node0 a1 _, .node0 a2 _ => AABB.beq a1 a2
  | .node2 a1 _ l1 r1, .node2 a2 _ l2 r2 =>
    AABB.beq a1 a2 && AABBTree.beq l1 l2 && AABBTree.beq r1 r2
  | .node0 _ _, .node2 _ _ _ _ => false
  | .node2 _ _ _ _, .node0 _ _ => false

/-- The value-free skeleton of a tree: the boxes and the leaf/internal
shape, with every `value` erased.  Two trees have equal `shape` exactly
when their boxes and leaf/internal shape agree at every corresponding
node. -/
def AABBTree.shape {α : Type} : AABBTree α → AABBTree Unit
  | .node0 a _ => .node0 a none
  | .node2 a _ l r => .node2 a none l.shape r.shape

/-- The list of `(box, value)` pairs stored at the leaves of a tree, in
left-to-right order. -/
def AABBTree.entries {α : Type} : AABBTree α → List (AABB × Option α)
  | .node0 a v => [(a, v)]
  | .node2 _ _ l r => l.entries ++ r.entries

/-- The tightness invariant: every internal node satisfies
`node.aabb == AABB.merge(node.left.aabb, node.right.aabb)` (Python `==`,
i.e. `AABB.beq`), recursively. -/
def AABBTree.tight {α : Type} : AABBTree α → Prop
  | .node0 _ _ => True
  | .node2 a _ l r =>
    AABB.beq a (AABB.merge l.aabb r.aabb) = true ∧ l.tight ∧ r.tight

/-- The tree obtained by inserting the given `(limits, value)` pairs in
order into a freshly constructed empty tree. -/
def buildTree {α : Type} (items : List (List (ℚ × ℚ) × Option α)) : AABBTree α :=
  items.foldl (fun t p => t.add ⟨some p.1⟩ p.2) AABBTree.mkEmpty

/-- Whether the box of an entry overlaps the (non-empty) query limits
`lq`, in the sense of the loop of `AABB.overlaps`; an entry with an
empty box counts as non-overlapping (such entries never occur in trees
built by `add` from non-empty boxes). -/
def entryOverlaps {α : Type} (lq : List (ℚ × ℚ)) (e : AABB × Option α) : Bool :=
  match e.1.limits with
  | some l => overlapsCore l lq
  | none => false

/-- Well-formedness of a tree built from non-empty boxes of a common
dimension `d`: every leaf stores a box of dimension `d`, and every
internal node carries exactly the merge of its children boxes. -/
inductive WF {α : Type} (d : ℕ) : AABBTree α → Prop where
  | leaf (lb : List (ℚ × ℚ)) (v : Option α) (hlen : lb.length = d) :
      WF d (.node0 ⟨some lb⟩ v)
  | internal (a : AABB) (v : Option α) (l r : AABBTree α)
      (hl : WF d l) (hr : WF d r) (ha : a = AABB.merge l.aabb r.aabb) :
      WF d (.node2 a v l r)

theorem beqLims_iff (l1 : List (ℚ × ℚ)) : ∀ l2 : List (ℚ × ℚ),
    (decide (l1.length = l2.length) &&
      (List.zip l1 l2).all (fun p => decide (p.1.1 = p.2.1) && decide (p.1.2 = p.2.2))) = true
      ↔ l1 = l2 := by
  induction l1 with
  | nil => intro l2; cases l2 <;> simp
  | cons h1 t1 ih =>
    intro l2
    cases l2 with
    | nil => simp
    | cons h2 t2 =>
      have := ih t2
      simp only [List.zip_cons_cons, List.all_cons, List.length_cons, Bool.and_eq_true,
        decide_eq_true_eq, Nat.succ_inj] at this ⊢
      constructor
      · rintro ⟨hlen, ⟨he1, he2⟩, hall⟩
        have ht : t1 = t2 := this.mp ⟨hlen, hall⟩
        have hh : h1 = h2 := Prod.ext he1 he2
        rw [hh, ht]
      · intro h
        injection h with hh ht
        rcases this.mpr ht with ⟨hlen, hall⟩
        exact ⟨hlen, ⟨by rw [hh], by rw [hh]⟩, hall⟩

/-- `AABB.__eq__` on two boxes agrees with structural equality of the
embedding. -/
theorem AABB.beq_iff (a b : AABB) : AABB.beq a b = true ↔ a = b := by
  obtain ⟨la⟩ := a
  obtain ⟨lb⟩ := b
  cases la with
  | none => cases lb <;> simp [AABB.beq]
  | some l1 =>
    cases lb with
    | none => simp [AABB.beq]
    | some l2 =>
      have h : AABB.beq ⟨some l1⟩ ⟨some l2⟩ =
          (decide (l1.length = l2.length) &&
            (List.zip l1 l2).all
              (fun p => decide (p.1.1 = p.2.1) && decide (p.1.2 = p.2.2))) := rfl
      rw [h, beqLims_iff l1 l2]
      simp

theorem AABB.beq_refl (a : AABB) : AABB.beq a a = true := (AABB.beq_iff a a).mpr rfl

theorem AABB.beq_empty_iff (a : AABB) : AABB.beq a AABB.empty = true ↔ a.limits = none := by
  obtain ⟨la⟩ := a
  cases la <;> simp [AABB.beq, AABB.empty]

theorem WF.limits {α : Type} {d : ℕ} {t : AABBTree α} (h : WF d t) :
    ∃ lb : List (ℚ × ℚ), t.aabb = ⟨some lb⟩ ∧ lb.length = d := by
  induction h with
  | leaf lb v hlen => exact ⟨lb, rfl, hlen⟩
  | internal a v l r hl hr ha ihl ihr =>
    obtain ⟨ll, hll, hl1⟩ := ihl
    obtain ⟨lr2, hlr, hl2⟩ := ihr
    refine ⟨List.zipWith (fun p q => (min p.1 q.1, max p.2 q.2)) ll lr2, ?_, ?_⟩
    · simp only [AABBTree.aabb]
      rw [ha, hll, hlr]
      rfl
    · simp [List.length_zipWith, hl1, hl2]

theorem WF.aabb_beq_empty {α : Type} {d : ℕ} {t : AABBTree α} (h : WF d t) :
    AABB.beq t.aabb AABB.empty = false := by
  obtain ⟨lb, hlb, _⟩ := h.limits
  rw [hlb]
  rfl

theorem add_node2_cases {α : Type} (a : AABB) (v : Option α) (l r : AABBTree α)
    (b : AABB) (val : Option α) (hne : AABB.beq a AABB.empty = false) :
    AABBTree.add (.node2 a v l r) b val =
        .node2 (AABB.merge a b) none (.node2 a v l r) (.node0 b val) ∨
    AABBTree.add (.node2 a v l r) b val =
        .node2 (AABB.merge (AABBTree.add l b val).aabb r.aabb) v (AABBTree.add l b val) r ∨
    AABBTree.add (.node2 a v l r) b val =
        .node2 (AABB.merge l.aabb (AABBTree.add r b val).aabb) v l (AABBTree.add r b val) := by
  simp only [AABBTree.add, hne, Bool.false_eq_true, if_false]
  split <;> split <;> split <;>
    first
      | exact Or.inl rfl
      | (split <;>
          first
            | exact Or.inr (Or.inl rfl)
            | exact Or.inr (Or.inr rfl))

theorem WF.add {α : Type} {d : ℕ} {t : AABBTree α} (h : WF d t)
    (lb : List (ℚ × ℚ)) (hlen : lb.length = d) (v : Option α) :
    WF d (t.add ⟨some lb⟩ v) := by
  induction h with
  | leaf la v0 hla =>
    have hstep : AABBTree.add (.node0 ⟨some la⟩ v0) ⟨some lb⟩ v =
        .node2 (AABB.merge ⟨some la⟩ ⟨some lb⟩) none
          (.node0 ⟨some la⟩ v0) (.node0 ⟨some lb⟩ v) := by
      simp [AABBTree.add, AABB.beq, AABB.empty]
    rw [hstep]
    exact WF.internal _ _ _ _ (WF.leaf la v0 hla) (WF.leaf lb v hlen) rfl
  | internal a v0 l r hl hr ha ihl ihr =>
    have hwf : WF d (.node2 a v0 l r) := WF.internal a v0 l r hl hr ha
    have hne : AABB.beq a AABB.empty = false := by
      have := hwf.aabb_beq_empty
      simpa [AABBTree.aabb] using this
    rcases add_node2_cases a v0 l r ⟨some lb⟩ v hne with hcase | hcase | hcase <;> rw [hcase]
    · exact WF.internal _ _ _ _ hwf (WF.leaf lb v hlen) rfl
    · exact WF.internal _ _ _ _ ihl hr rfl
    · exact WF.internal _ _ _ _ hl ihr rfl

theorem entries_add {α : Type} {d : ℕ} {t : AABBTree α} (h : WF d t)
    (b : AABB) (val : Option α) :
    (t.add b val).entries.Perm (t.entries ++ [(b, val)]) := by
  induction h with
  | leaf la v0 hla =>
    have hstep : AABBTree.add (.node0 ⟨some la⟩ v0) b val =
        .node2 (AABB.merge ⟨some la⟩ b) none (.node0 ⟨some la⟩ v0) (.node0 b val) := by
      simp [AABBTree.add, AABB.beq, AABB.empty]
    rw [hstep]
    simp only [AABBTree.entries]
    exact List.Perm.refl _
  | internal a v0 l r hl hr ha ihl ihr =>
    have hwf : WF d (.node2 a v0 l r) := WF.internal a v0 l r hl hr ha
    have hne : AABB.beq a AABB.empty = false := by
      have := hwf.aabb_beq_empty
      simpa [AABBTree.aabb] using this
    rcases add_node2_cases a v0 l r b val hne with hcase | hcase | hcase <;> rw [hcase]
    · simp only [AABBTree.entries]
      exact List.Perm.refl _
    · simp only [AABBTree.entries]
      refine (ihl.append_right r.entries).trans ?_
      rw [List.append_assoc, List.append_assoc]
      exact List.Perm.append_left _ List.perm_append_comm
    · simp only [AABBTree.entries]
      refine (List.Perm.append_left l.entries ihr).trans ?_
      rw [List.append_assoc]

theorem overlapsCore_mono_left : ∀ (l1 l2 lq : List (ℚ × ℚ)),
    overlapsCore l1 lq = true →
    overlapsCore (List.zipWith (fun p q => (min p.1 q.1, max p.2 q.2)) l1 l2) lq = true := by
  intro l1
  induction l1 with
  | nil => intro l2 lq _; simp [overlapsCore]
  | cons p1 t1 ih =>
    intro l2 lq h
    cases l2 with
    | nil => simp [overlapsCore]
    | cons p2 t2 =>
      cases lq with
      | nil => simp [overlapsCore]
      | cons q tq =>
        simp only [overlapsCore] at h
        split at h
        case isTrue hc =>
          simp only [List.zipWith_cons_cons, overlapsCore]
          rw [if_pos]
          · exact ih t2 tq h
          · exact ⟨le_trans hc.1 (le_max_left _ _), le_trans (min_le_left _ _) hc.2⟩
        case isFalse hc => exact absurd h (by simp)

theorem overlapsCore_mono_right : ∀ (l1 l2 lq : List (ℚ × ℚ)),
    overlapsCore l2 lq = true →
    overlapsCore (List.zipWith (fun p q => (min p.1 q.1, max p.2 q.2)) l1 l2) lq = true := by
  intro l1
  induction l1 with
  | nil => intro l2 lq _; simp [overlapsCore]
  | cons p1 t1 ih =>
    intro l2 lq h
    cases l2 with
    | nil => simp [overlapsCore]
    | cons p2 t2 =>
      cases lq with
      | nil => simp [overlapsCore]
      | cons q tq =>
        simp only [overlapsCore] at h
        split at h
        case isTrue hc =>
          simp only [List.zipWith_cons_cons, overlapsCore]
          rw [if_pos]
          · exact ih t2 tq h
          · exact ⟨le_trans hc.1 (le_max_right _ _), le_trans (min_le_right _ _) hc.2⟩
        case isFalse hc => exact absurd h (by simp)

theorem WF.entry_overlaps {α : Type} {d : ℕ} {t : AABBTree α} (h : WF d t)
    {lq la : List (ℚ × ℚ)} (hla : t.aabb = ⟨some la⟩) :
    ∀ e ∈ t.entries, entryOverlaps lq e = true → overlapsCore la lq = true := by
  induction h generalizing la with
  | leaf lb v hlen =>
    intro e he hov
    simp only [AABBTree.entries, List.mem_singleton] at he
    simp only [AABBTree.aabb, AABB.mk.injEq, Option.some.injEq] at hla
    subst he
    simp only [entryOverlaps] at hov
    rw [← hla]
    exact hov
  | internal a v l r hl hr ha ihl ihr =>
    intro e he hov
    obtain ⟨ll, hll, _⟩ := hl.limits
    obtain ⟨lr2, hlr, _⟩ := hr.limits
    simp only [AABBTree.aabb] at hla
    have hza : la = List.zipWith (fun p q => (min p.1 q.1, max p.2 q.2)) ll lr2 := by
      rw [hla, hll, hlr] at ha
      simpa [AABB.merge] using ha
    simp only [AABBTree.entries, List.mem_append] at he
    rcases he with hel | her
    · rw [hza]
      exact overlapsCore_mono_left ll lr2 lq (ihl hll e hel hov)
    · rw [hza]
      exact overlapsCore_mono_right ll lr2 lq (ihr hlr e her hov)

theorem overlap_values_entries {α : Type} {d : ℕ} {t : AABBTree α} (h : WF d t)
    (lq : List (ℚ × ℚ)) :
    t.overlap_values ⟨some lq⟩ =
      some ((t.entries.filter (entryOverlaps lq)).map Prod.snd) := by
  induction h with
  | leaf lb v hlen =>
    cases hcore : overlapsCore lb lq <;>
      simp [AABBTree.overlap_values, AABBTree.does_overlap, AABB.overlaps,
        AABBTree.entries, entryOverlaps, hcore]
  | internal a v l r hl hr ha ihl ihr =>
    obtain ⟨ll, hll, _⟩ := hl.limits
    obtain ⟨lr2, hlr, _⟩ := hr.limits
    have hfl : overlapsCore ll lq = false →
        l.entries.filter (entryOverlaps lq) = [] := by
      intro hlo
      refine List.filter_eq_nil_iff.mpr ?_
      intro e he hov
      have hcontra := hl.entry_overlaps hll e he hov
      rw [hlo] at hcontra
      exact Bool.noConfusion hcontra
    have hfr : overlapsCore lr2 lq = false →
        r.entries.filter (entryOverlaps lq) = [] := by
      intro hro
      refine List.filter_eq_nil_iff.mpr ?_
      intro e he hov
      have hcontra := hr.entry_overlaps hlr e he hov
      rw [hro] at hcontra
      exact Bool.noConfusion hcontra
    cases hlo : overlapsCore ll lq with
    | false =>
      cases hro : overlapsCore lr2 lq with
      | false =>
        simp [AABBTree.overlap_values, hll, hlr, AABB.overlaps, hlo, hro,
          AABBTree.entries, List.filter_append, hfl hlo, hfr hro]
      | true =>
        simp [AABBTree.overlap_values, hll, hlr, AABB.overlaps, hlo, hro, ihr,
          AABBTree.entries, List.filter_append, hfl hlo]
    | true =>
      cases hro : overlapsCore lr2 lq with
      | false =>
        simp [AABBTree.overlap_values, hll, hlr, AABB.overlaps, hlo, hro, ihl,
          AABBTree.entries, List.filter_append, hfr hro]
      | true =>
        simp [AABBTree.overlap_values, hll, hlr, AABB.overlaps, hlo, hro, ihl, ihr,
          AABBTree.entries, List.filter_append]

theorem does_overlap_entries {α : Type} {d : ℕ} {t : AABBTree α} (h : WF d t)
    (lq : List (ℚ × ℚ)) :
    t.does_overlap ⟨some lq⟩ =
      some (!(t.entries.filter (entryOverlaps lq)).isEmpty) := by
  induction h with
  | leaf lb v hlen =>
    cases hcore : overlapsCore lb lq <;>
      simp [AABBTree.does_overlap, AABB.overlaps, AABBTree.entries,
        entryOverlaps, hcore]
  | internal a v l r hl hr ha ihl ihr =>
    obtain ⟨ll, hll, _⟩ := hl.limits
    obtain ⟨lr2, hlr, _⟩ := hr.limits
    have hfl : overlapsCore ll lq = false →
        l.entries.filter (entryOverlaps lq) = [] := by
      intro hlo
      refine List.filter_eq_nil_iff.mpr ?_
      intro e he hov
      have hcontra := hl.entry_overlaps hll e he hov
      rw [hlo] at hcontra
      exact Bool.noConfusion hcontra
    have hfr : overlapsCore lr2 lq = false →
        r.entries.filter (entryOverlaps lq) = [] := by
      intro hro
      refine List.filter_eq_nil_iff.mpr ?_
      intro e he hov
      have hcontra := hr.entry_overlaps hlr e he hov
      rw [hro] at hcontra
      exact Bool.noConfusion hcontra
    cases hlo : overlapsCore ll lq with
    | false =>
      cases hro : overlapsCore lr2 lq with
      | false =>
        simp [AABBTree.does_overlap, hll, hlr, AABB.overlaps, hlo, hro,
          AABBTree.entries, List.filter_append, hfl hlo, hfr hro]
      | true =>
        simp [AABBTree.does_overlap, hll, hlr, AABB.overlaps, hlo, hro, ihr,
          AABBTree.entries, List.filter_append, hfl hlo]
    | true =>
      cases hro : overlapsCore lr2 lq with
      | false =>
        simp only [AABBTree.does_overlap, hll, hlr, AABB.overlaps, hlo, hro, ihl,
          AABBTree.entries, List.filter_append, hfr hro]
        cases hb : (List.filter (entryOverlaps lq) l.entries).isEmpty <;>
          simp [hb, List.append_nil]
      | true =>
        simp only [AABBTree.does_overlap, hll, hlr, AABB.overlaps, hlo, hro, ihl, ihr,
          AABBTree.entries, List.filter_append]
        cases hb : List.filter (entryOverlaps lq) l.entries with
        | nil => simp
        | cons e es => simp

theorem WF.tight_holds {α : Type} {d : ℕ} {t : AABBTree α} (h : WF d t) : t.tight := by
  induction h with
  | leaf lb v hlen => trivial
  | internal a v l r hl hr ha ihl ihr =>
    simp only [AABBTree.tight]
    refine ⟨?_, ihl, ihr⟩
    rw [ha]
    exact AABB.beq_refl _

theorem fold_wf {α : Type} {d : ℕ} (items : List (List (ℚ × ℚ) × Option α)) :
    ∀ t : AABBTree α, WF d t → (∀ p ∈ items, p.1.length = d) →
    WF d (items.foldl (fun t p => t.add ⟨some p.1⟩ p.2) t) := by
  induction items with
  | nil => intro t ht _; simpa using ht
  | cons p ps ih =>
    intro t ht hd
    simp only [List.foldl_cons]
    exact ih _ (ht.add p.1 (hd p (List.mem_cons_self _ _)) p.2)
      (fun q hq => hd q (List.mem_cons_of_mem _ hq))

theorem fold_entries {α : Type} {d : ℕ} (items : List (List (ℚ × ℚ) × Option α)) :
    ∀ t : AABBTree α, WF d t → (∀ p ∈ items, p.1.length = d) →
    ((items.foldl (fun t p => t.add ⟨some p.1⟩ p.2) t).entries).Perm
      (t.entries ++ items.map (fun p => ((⟨some p.1⟩ : AABB), p.2))) := by
  induction items with
  | nil =>
    intro t ht _
    simp only [List.foldl_nil, List.map_nil, List.append_nil]
    exact List.Perm.refl _
  | cons p ps ih =>
    intro t ht hd
    simp only [List.foldl_cons, List.map_cons]
    have h1 := ih (t.add ⟨some p.1⟩ p.2)
      (ht.add p.1 (hd p (List.mem_cons_self _ _)) p.2)
      (fun q hq => hd q (List.mem_cons_of_mem _ hq))
    refine h1.trans ?_
    refine ((entries_add ht ⟨some p.1⟩ p.2).append_right _).trans ?_
    rw [List.append_assoc]
    exact List.Perm.refl _

theorem buildTree_first {α : Type} (p : List (ℚ × ℚ) × Option α) :
    AABBTree.mkEmpty.add (⟨some p.1⟩ : AABB) p.2 =
      (.node0 ⟨some p.1⟩ p.2 : AABBTree α) := by
  simp [AABBTree.mkEmpty, AABBTree.add, AABB.beq, AABB.empty]

theorem buildTree_wf {α : Type} {d : ℕ} (items : List (List (ℚ × ℚ) × Option α))
    (hne : items ≠ []) (hd : ∀ p ∈ items, p.1.length = d) :
    WF d (buildTree items) := by
  cases items with
  | nil => exact absurd rfl hne
  | cons p ps =>
    simp only [buildTree, List.foldl_cons]
    rw [buildTree_first p]
    exact fold_wf ps _ (WF.leaf p.1 p.2 (hd p (List.mem_cons_self _ _)))
      (fun q hq => hd q (List.mem_cons_of_mem _ hq))

theorem buildTree_entries {α : Type} {d : ℕ} (items : List (List (ℚ × ℚ) × Option α))
    (hne : items ≠ []) (hd : ∀ p ∈ items, p.1.length = d) :
    (buildTree items).entries.Perm
      (items.map (fun p => ((⟨some p.1⟩ : AABB), p.2))) := by
  cases items with
  | nil => exact absurd rfl hne
  | cons p ps =>
    simp only [buildTree, List.foldl_cons, List.map_cons]
    rw [buildTree_first p]
    have h1 := fold_entries ps (.node0 ⟨some p.1⟩ p.2)
      (WF.leaf p.1 p.2 (hd p (List.mem_cons_self _ _)))
      (fun q hq => hd q (List.mem_cons_of_mem _ hq))
    refine h1.trans ?_
    simp only [AABBTree.entries, List.singleton_append]
    exact List.Perm.refl _

theorem filter_map_comm {α β : Type} (f : α → β) (p : β → Bool) (l : List α) :
    (l.map f).filter p = (l.filter (fun x => p (f x))).map f := by
  induction l with
  | nil => rfl
  | cons x xs ih =>
    simp only [List.map_cons, List.filter_cons]
    cases hp : p (f x) <;> simp [hp, ih]

/-- C1: for every nonempty finite sequence of insertions of
`(box, value)` pairs of a common dimension `d` into an initially empty
tree, and every query box of dimension `d`, `overlap_values` succeeds
and returns exactly the values of the inserted pairs whose box overlaps
the query — no omissions, no extras, one occurrence per overlapping
inserted pair — up to traversal order, hence the same multiset for
every insertion order. -/
theorem overlap_values_exact {α : Type} (items : List (List (ℚ × ℚ) × Option α)) (d : ℕ)
    (hne : items ≠ []) (hd : ∀ p ∈ items, p.1.length = d)
    (lq : List (ℚ × ℚ)) (hq : lq.length = d) :
    ∃ vs, (buildTree items).overlap_values ⟨some lq⟩ = some vs ∧
      vs.Perm ((items.filter (fun p => overlapsCore p.1 lq)).map (fun p => p.2)) := by
  refine ⟨_, overlap_values_entries (buildTree_wf items hne hd) lq, ?_⟩
  have hperm := buildTree_entries items hne hd
  have h1 := hperm.filter (entryOverlaps lq)
  have h2 := h1.map (Prod.snd (α := AABB) (β := Option α))
  refine h2.trans ?_
  rw [filter_map_comm, List.map_map]
  exact List.Perm.refl _

def itemsC1 : List (List (ℚ × ℚ) × Option ℕ) :=
  [([(0, 1), (0, 1)], some 10), ([(5, 6), (5, 6)], some 20), ([(2, 3), (0, 1)], some 30)]

def queryC1 : List (ℚ × ℚ) := [(0, 3), (0, 1)]

theorem overlap_values_exact_witness :
    itemsC1 ≠ [] ∧ (∀ p ∈ itemsC1, p.1.length = 2) ∧ queryC1.length = 2 ∧
    (∃ vs, (buildTree itemsC1).overlap_values ⟨some queryC1⟩ = some vs ∧
      vs.Perm ((itemsC1.filter (fun p => overlapsCore p.1 queryC1)).map (fun p => p.2))) :=
  ⟨by decide, by decide, by decide,
    overlap_values_exact itemsC1 2 (by decide) (by decide) queryC1 (by decide)⟩

/-- C2: after every call to `add` on a tree built by any nonempty
sequence of equal-dimension insertions into an initially empty tree,
every internal node `n` satisfies
`n.aabb == AABB.merge(n.left.aabb, n.right.aabb)` (Python `==`, i.e.
`AABB.beq`), recursively for the whole tree.  Since the sequence is
arbitrary, this covers the state after each intermediate `add` of any
longer sequence as well. -/
theorem tight_after_build {α : Type} (items : List (List (ℚ × ℚ) × Option α)) (d : ℕ)
    (hne : items ≠ []) (hd : ∀ p ∈ items, p.1.length = d) :
    (buildTree items).tight :=
  (buildTree_wf items hne hd).tight_holds

def itemsC2 : List (List (ℚ × ℚ) × Option ℕ) :=
  [([(0, 1), (0, 1)], some 0), ([(5, 6), (5, 6)], some 1), ([(2, 3), (2, 3)], some 2),
    ([(1, 4), (1, 4)], some 3)]

theorem tight_after_build_witness :
    itemsC2 ≠ [] ∧ (∀ p ∈ itemsC2, p.1.length = 2) ∧ (buildTree itemsC2).tight :=
  ⟨by decide, by decide, tight_after_build itemsC2 2 (by decide) (by decide)⟩

/-- C4: for every tree built from a nonempty sequence of
equal-dimension insertions and every query box of that dimension,
`does_overlap` succeeds, `overlap_values` succeeds, and `does_overlap`
returns `True` exactly when `overlap_values` returns a non-empty
list. -/
theorem does_overlap_consistent {α : Type} (items : List (List (ℚ × ℚ) × Option α)) (d : ℕ)
    (hne : items ≠ []) (hd : ∀ p ∈ items, p.1.length = d)
    (lq : List (ℚ × ℚ)) (hq : lq.length = d) :
    ∃ b vs, (buildTree items).does_overlap ⟨some lq⟩ = some b ∧
      (buildTree items).overlap_values ⟨some lq⟩ = some vs ∧
      (b = true ↔ vs ≠ []) := by
  have hwf := buildTree_wf items hne hd
  refine ⟨!(((buildTree items).entries.filter (entryOverlaps lq)).isEmpty), _,
    does_overlap_entries hwf lq, overlap_values_entries hwf lq, ?_⟩
  cases hfil : (buildTree items).entries.filter (entryOverlaps lq) with
  | nil => simp [hfil]
  | cons e es => simp [hfil]

def itemsC4 : List (List (ℚ × ℚ) × Option ℕ) :=
  [([(0, 2)], some 1), ([(5, 7)], some 2)]

def queryC4 : List (ℚ × ℚ) := [(1, 6)]

theorem does_overlap_consistent_witness :
    itemsC4 ≠ [] ∧ (∀ p ∈ itemsC4, p.1.length = 1) ∧ queryC4.length = 1 ∧
    (∃ b vs, (buildTree itemsC4).does_overlap ⟨some queryC4⟩ = some b ∧
      (buildTree itemsC4).overlap_values ⟨some queryC4⟩ = some vs ∧
      (b = true ↔ vs ≠ [])) :=
  ⟨by decide, by decide, by decide,
    does_overlap_consistent itemsC4 1 (by decide) (by decide) queryC4 (by decide)⟩

/-- Written from the words of the spec, to be compared with the source
code of `AABBTree.add`: the direct cost of splitting at the current
node, `2 * perimeter(merge(self.box, b))`. -/
def specDirectCost (selfBox b : AABB) : ℚ := 2 * (AABB.merge selfBox b).perimeter

/-- Written from the words of the spec: the pushdown cost
`2 * (perimeter(merge(self.box, b)) - perimeter(self.box))`. -/
def specPushdown (selfBox b : AABB) : ℚ :=
  2 * ((AABB.merge selfBox b).perimeter - selfBox.perimeter)

/-- Written from the words of the spec: the cost of descending into
child `c`, `perimeter(merge(c.box, b)) + pushdown`, reduced by
`perimeter(c.box)` exactly when `c` is internal. -/
def specChildCost {α : Type} (selfBox b : AABB) (c : AABBTree α) : ℚ :=
  (AABB.merge c.aabb b).perimeter + specPushdown selfBox b -
    (if c.is_leaf then 0 else c.aabb.perimeter)

/-- C3: when `add` reaches an internal node (whose box is not the empty
box, so the uninitialized-root branch does not fire), it splits in place
— the old node becomes the new left child, a fresh leaf with the
incoming pair becomes the right child, the value is cleared and the box
becomes the merge — exactly when `direct_cost < min(cost_left,
cost_right)`; otherwise it recurses into the left child exactly when
`cost_left < cost_right` and into the right child otherwise (ties broken
toward the right), afterwards recomputing the box as the merge of the
children boxes. -/
theorem add_internal_decision {α : Type} (a : AABB) (v : Option α) (l r : AABBTree α)
    (b : AABB) (val : Option α) (hne : AABB.beq a AABB.empty = false) :
    AABBTree.add (.node2 a v l r) b val =
      if specDirectCost a b < min (specChildCost a b l) (specChildCost a b r) then
        .node2 (AABB.merge a b) none (.node2 a v l r) (.node0 b val)
      else if specChildCost a b l < specChildCost a b r then
        .node2 (AABB.merge (AABBTree.add l b val).aabb r.aabb) v (AABBTree.add l b val) r
      else
        .node2 (AABB.merge l.aabb (AABBTree.add r b val).aabb) v l (AABBTree.add r b val) := by
  have hcl : (if !l.is_leaf then
        (AABB.merge l.aabb b).perimeter + 2 * ((AABB.merge a b).perimeter - a.perimeter)
          - l.aabb.perimeter
      else
        (AABB.merge l.aabb b).perimeter + 2 * ((AABB.merge a b).perimeter - a.perimeter)) =
      specChildCost a b l := by
    cases hleaf : l.is_leaf <;> simp [specChildCost, specPushdown, hleaf]
  have hcr : (if !r.is_leaf then
        (AABB.merge r.aabb b).perimeter + 2 * ((AABB.merge a b).perimeter - a.perimeter)
          - r.aabb.perimeter
      else
        (AABB.merge r.aabb b).perimeter + 2 * ((AABB.merge a b).perimeter - a.perimeter)) =
      specChildCost a b r := by
    cases hleaf : r.is_leaf <;> simp [specChildCost, specPushdown, hleaf]
  simp only [AABBTree.add, hne, Bool.false_eq_true, if_false]
  rw [hcl, hcr]
  rfl

def boxC3 : AABB := ⟨some [(0, 4), (0, 4)]⟩

def leftC3 : AABBTree ℕ := .node0 ⟨some [(0, 1), (0, 1)]⟩ (some 0)

def rightC3 : AABBTree ℕ := .node0 ⟨some [(3, 4), (3, 4)]⟩ (some 1)

def newBoxC3 : AABB := ⟨some [(10, 11), (10, 11)]⟩

theorem add_internal_decision_witness :
    AABB.beq boxC3 AABB.empty = false ∧
    AABBTree.add (.node2 boxC3 none leftC3 rightC3) newBoxC3 (some 2) =
      (if specDirectCost boxC3 newBoxC3 <
          min (specChildCost boxC3 newBoxC3 leftC3) (specChildCost boxC3 newBoxC3 rightC3) then
        .node2 (AABB.merge boxC3 newBoxC3) none (.node2 boxC3 none leftC3 rightC3)
          (.node0 newBoxC3 (some 2))
      else if specChildCost boxC3 newBoxC3 leftC3 < specChildCost boxC3 newBoxC3 rightC3 then
        .node2 (AABB.merge (AABBTree.add leftC3 newBoxC3 (some 2)).aabb rightC3.aabb) none
          (AABBTree.add leftC3 newBoxC3 (some 2)) rightC3
      else
        .node2 (AABB.merge leftC3.aabb (AABBTree.add rightC3 newBoxC3 (some 2)).aabb) none
          leftC3 (AABBTree.add rightC3 newBoxC3 (some 2))) :=
  ⟨by decide, add_internal_decision boxC3 none leftC3 rightC3 newBoxC3 (some 2) (by decide)⟩

theorem construct_elem_iff (l : List ℚ) :
    (decide (l.length = 2) && decide (l.getD 0 0 ≤ l.getD 1 0)) = true ↔
      ∃ x y : ℚ, l = [x, y] ∧ x ≤ y := by
  cases l with
  | nil => simp
  | cons x t =>
    cases t with
    | nil => simp
    | cons y t2 =>
      cases t2 with
      | nil =>
        constructor
        · intro hb
          rcases (Bool.and_eq_true _ _).mp hb with ⟨_, hle⟩
          exact ⟨x, y, rfl, of_decide_eq_true hle⟩
        · rintro ⟨a, b2, heq, hab⟩
          injection heq with h1 hrest
          injection hrest with h2 _
          subst h1
          subst h2
          exact (Bool.and_eq_true _ _).mpr ⟨rfl, decide_eq_true hab⟩
      | cons z t3 => simp

/-- C5: constructing a box from a list of intervals fails (the failing
`assert` aborts the call and no box is produced, modelled by `none`)
exactly when some supplied interval does not consist of two bounds `x ≤
y`; it succeeds exactly when every interval does, and a construction
with no intervals produces the empty box. -/
theorem construct_validates (ls : List (List ℚ)) :
    AABB.construct none = some AABB.empty ∧
    (AABB.construct (some ls) = none ↔ ¬ ∀ l ∈ ls, ∃ x y : ℚ, l = [x, y] ∧ x ≤ y) ∧
    ((AABB.construct (some ls)).isSome ↔ ∀ l ∈ ls, ∃ x y : ℚ, l = [x, y] ∧ x ≤ y) := by
  have hall : (ls.all (fun l => decide (l.length = 2) && decide (l.getD 0 0 ≤ l.getD 1 0)) = true)
      ↔ ∀ l ∈ ls, ∃ x y : ℚ, l = [x, y] ∧ x ≤ y := by
    rw [List.all_eq_true]
    constructor
    · intro h l hl
      exact (construct_elem_iff l).mp (h l hl)
    · intro h l hl
      exact (construct_elem_iff l).mpr (h l hl)
  by_cases h : ∀ l ∈ ls, ∃ x y : ℚ, l = [x, y] ∧ x ≤ y
  · have hb := hall.mpr h
    have hsome : AABB.construct (some ls) =
        some ⟨some (ls.map (fun l => (l.getD 0 0, l.getD 1 0)))⟩ := by
      simp only [AABB.construct, hb, if_true]
    refine ⟨rfl, ?_, ?_⟩
    · rw [hsome]
      exact iff_of_false (by simp) (not_not_intro h)
    · exact iff_of_true (by rw [hsome]; rfl) h
  · have hb : ls.all (fun l => decide (l.length = 2) && decide (l.getD 0 0 ≤ l.getD 1 0))
        = false := by
      cases hb2 : ls.all (fun l => decide (l.length = 2) && decide (l.getD 0 0 ≤ l.getD 1 0)) with
      | true => exact absurd (hall.mp hb2) h
      | false => rfl
    have hnone : AABB.construct (some ls) = none := by
      simp only [AABB.construct, hb, Bool.false_eq_true, if_false]
    refine ⟨rfl, ?_, ?_⟩
    · exact iff_of_true hnone h
    · exact iff_of_false (by rw [hnone]; simp) h

theorem construct_validates_witness :
    AABB.construct none = some AABB.empty ∧
    (AABB.construct (some [[(1 : ℚ), 2], [(5 : ℚ), 3]]) = none ↔
      ¬ ∀ l ∈ [[(1 : ℚ), 2], [(5 : ℚ), 3]], ∃ x y : ℚ, l = [x, y] ∧ x ≤ y) ∧
    ((AABB.construct (some [[(1 : ℚ), 2], [(5 : ℚ), 3]])).isSome ↔
      ∀ l ∈ [[(1 : ℚ), 2], [(5 : ℚ), 3]], ∃ x y : ℚ, l = [x, y] ∧ x ≤ y) :=
  construct_validates [[(1 : ℚ), 2], [(5 : ℚ), 3]]

theorem overlapsCore_index_iff : ∀ l1 l2 : List (ℚ × ℚ),
    overlapsCore l1 l2 = true ↔
      ∀ (i : ℕ) (h1 : i < l1.length) (h2 : i < l2.length),
        (l1.get ⟨i, h1⟩).2 ≥ (l2.get ⟨i, h2⟩).1 ∧ (l1.get ⟨i, h1⟩).1 ≤ (l2.get ⟨i, h2⟩).2 := by
  intro l1
  induction l1 with
  | nil => intro l2; simp [overlapsCore]
  | cons p1 t1 ih =>
    intro l2
    cases l2 with
    | nil => simp [overlapsCore]
    | cons p2 t2 =>
      simp only [overlapsCore]
      constructor
      · intro h i h1 h2
        split at h
        case isTrue hc =>
          cases i with
          | zero => exact hc
          | succ n =>
            exact (ih t2).mp h n (Nat.lt_of_succ_lt_succ h1) (Nat.lt_of_succ_lt_succ h2)
        case isFalse hc => exact absurd h (by simp)
      · intro h
        rw [if_pos]
        · exact (ih t2).mpr (fun n h1 h2 => h (n + 1) (Nat.succ_lt_succ h1) (Nat.succ_lt_succ h2))
        · exact h 0 (Nat.succ_pos _) (Nat.succ_pos _)

theorem overlapsCore_comm : ∀ l1 l2 : List (ℚ × ℚ), overlapsCore l1 l2 = overlapsCore l2 l1 := by
  intro l1
  induction l1 with
  | nil => intro l2; cases l2 <;> simp [overlapsCore]
  | cons p1 t1 ih =>
    intro l2
    cases l2 with
    | nil => simp [overlapsCore]
    | cons p2 t2 =>
      simp only [overlapsCore]
      rw [ih t2]
      exact if_congr (Iff.intro (fun hc => ⟨hc.2, hc.1⟩) (fun hc => ⟨hc.2, hc.1⟩)) rfl rfl

/-- C6: on non-empty boxes of equal dimension, `overlaps` raises no
exception and returns `True` exactly when in every dimension `i` the
closed-interval test `hi1 >= lo2 and lo1 <= hi2` holds (so touching
boundaries count), returns `False` exactly when some dimension fails the
test, and is symmetric in its two arguments. -/
theorem overlaps_spec (l1 l2 : List (ℚ × ℚ)) (h : l1.length = l2.length) :
    AABB.overlaps ⟨some l1⟩ ⟨some l2⟩ = some (overlapsCore l1 l2) ∧
    (overlapsCore l1 l2 = true ↔
      ∀ (i : ℕ) (h1 : i < l1.length) (h2 : i < l2.length),
        (l1.get ⟨i, h1⟩).2 ≥ (l2.get ⟨i, h2⟩).1 ∧ (l1.get ⟨i, h1⟩).1 ≤ (l2.get ⟨i, h2⟩).2) ∧
    (overlapsCore l1 l2 = false ↔
      ¬ ∀ (i : ℕ) (h1 : i < l1.length) (h2 : i < l2.length),
        (l1.get ⟨i, h1⟩).2 ≥ (l2.get ⟨i, h2⟩).1 ∧ (l1.get ⟨i, h1⟩).1 ≤ (l2.get ⟨i, h2⟩).2) ∧
    AABB.overlaps ⟨some l1⟩ ⟨some l2⟩ = AABB.overlaps ⟨some l2⟩ ⟨some l1⟩ := by
  refine ⟨rfl, overlapsCore_index_iff l1 l2, ?_, ?_⟩
  · rw [← overlapsCore_index_iff l1 l2]
    cases hcore : overlapsCore l1 l2 <;> simp
  · show some (overlapsCore l1 l2) = some (overlapsCore l2 l1)
    rw [overlapsCore_comm l1 l2]

theorem overlaps_spec_witness :
    ([((0 : ℚ), 2)] : List (ℚ × ℚ)).length = ([((1 : ℚ), 3)] : List (ℚ × ℚ)).length ∧
    (AABB.overlaps ⟨some [((0 : ℚ), 2)]⟩ ⟨some [((1 : ℚ), 3)]⟩ =
        some (overlapsCore [((0 : ℚ), 2)] [((1 : ℚ), 3)]) ∧
      (overlapsCore [((0 : ℚ), 2)] [((1 : ℚ), 3)] = true ↔
        ∀ (i : ℕ) (h1 : i < ([((0 : ℚ), 2)] : List (ℚ × ℚ)).length)
          (h2 : i < ([((1 : ℚ), 3)] : List (ℚ × ℚ)).length),
          (([((0 : ℚ), 2)] : List (ℚ × ℚ)).get ⟨i, h1⟩).2 ≥
              (([((1 : ℚ), 3)] : List (ℚ × ℚ)).get ⟨i, h2⟩).1 ∧
            (([((0 : ℚ), 2)] : List (ℚ × ℚ)).get ⟨i, h1⟩).1 ≤
              (([((1 : ℚ), 3)] : List (ℚ × ℚ)).get ⟨i, h2⟩).2) ∧
      (overlapsCore [((0 : ℚ), 2)] [((1 : ℚ), 3)] = false ↔
        ¬ ∀ (i : ℕ) (h1 : i < ([((0 : ℚ), 2)] : List (ℚ × ℚ)).length)
          (h2 : i < ([((1 : ℚ), 3)] : List (ℚ × ℚ)).length),
          (([((0 : ℚ), 2)] : List (ℚ × ℚ)).get ⟨i, h1⟩).2 ≥
              (([((1 : ℚ), 3)] : List (ℚ × ℚ)).get ⟨i, h2⟩).1 ∧
            (([((0 : ℚ), 2)] : List (ℚ × ℚ)).get ⟨i, h1⟩).1 ≤
              (([((1 : ℚ), 3)] : List (ℚ × ℚ)).get ⟨i, h2⟩).2) ∧
      AABB.overlaps ⟨some [((0 : ℚ), 2)]⟩ ⟨some [((1 : ℚ), 3)]⟩ =
        AABB.overlaps ⟨some [((1 : ℚ), 3)]⟩ ⟨some [((0 : ℚ), 2)]⟩) :=
  ⟨by decide, overlaps_spec [((0 : ℚ), 2)] [((1 : ℚ), 3)] (by decide)⟩

/-- C7: the empty box is an identity for `merge` up to box equality
(Python `==`): for every box `a`, `merge(a, empty) == a`,
`merge(empty, a) == a`, and `merge(empty, empty)` is the empty box.
The results are fresh boxes produced by the constructor call
`cls(...)` in the source; only their values are expressible here, and
those coincide with `a`. -/
theorem merge_empty_identity (a : AABB) :
    AABB.beq (AABB.merge a AABB.empty) a = true ∧
    AABB.beq (AABB.merge AABB.empty a) a = true ∧
    AABB.merge AABB.empty AABB.empty = AABB.empty := by
  obtain ⟨la⟩ := a
  cases la with
  | none => exact ⟨rfl, rfl, rfl⟩
  | some l =>
    refine ⟨?_, ?_, rfl⟩ <;>
      · show AABB.beq ⟨some l⟩ ⟨some l⟩ = true
        exact AABB.beq_refl _

/-- C8: querying a freshly constructed empty tree raises rather than
returning `False` or `[]`: the uninitialized root is a leaf whose empty
box makes the overlap test raise `TypeError` (modelled by `none`), for
both `does_overlap` and `overlap_values`, whatever the query box is. -/
theorem empty_tree_query_raises {α : Type} (q : AABB) :
    (AABBTree.mkEmpty : AABBTree α).does_overlap q = none ∧
    (AABBTree.mkEmpty : AABBTree α).overlap_values q = none ∧
    (AABBTree.mkEmpty : AABBTree α).is_leaf = true ∧
    (AABBTree.mkEmpty : AABBTree α).aabb = AABB.empty :=
  ⟨rfl, rfl, rfl, rfl⟩

/-- C9: calling `add` on an empty tree with the empty box `AABB()` as
the box argument stores the value, but the tree still passes the
uninitialized-root test (`self.aabb == AABB()` holds), so the very next
`add` — whatever its arguments — overwrites box and value in place and
produces a single leaf holding only the second item: the first inserted
item is lost. -/
theorem empty_box_add_overwrites {α : Type} (v1 : Option α) (b2 : AABB) (v2 : Option α) :
    (AABBTree.mkEmpty.add AABB.empty v1).value = v1 ∧
    (AABBTree.mkEmpty.add AABB.empty v1).aabb = AABB.empty ∧
    AABB.beq (AABBTree.mkEmpty.add AABB.empty v1).aabb AABB.empty = true ∧
    (AABBTree.mkEmpty.add AABB.empty v1).add b2 v2 = (.node0 b2 v2 : AABBTree α) := by
  have h1 : AABBTree.mkEmpty.add AABB.empty v1 = (.node0 AABB.empty v1 : AABBTree α) := by
    simp [AABBTree.mkEmpty, AABBTree.add, AABB.beq, AABB.empty]
  rw [h1]
  refine ⟨rfl, rfl, rfl, ?_⟩
  simp [AABBTree.add, AABB.beq, AABB.empty]

/-- C10: structural tree equality ignores node values: `__eq__` returns
`True` exactly when the two trees have the same value-free skeleton
(boxes and leaf/internal shape at every corresponding node), so two
trees whose corresponding leaves carry different values still compare
equal. -/
theorem tree_eq_ignores_values {α β : Type} (t1 : AABBTree α) (t2 : AABBTree β) :
    AABBTree.beq t1 t2 = true ↔ t1.shape = t2.shape := by
  induction t1 generalizing t2 with
  | node0 a1 v1 =>
    cases t2 with
    | node0 a2 v2 => simp [AABBTree.beq, AABBTree.shape, AABB.beq_iff]
    | node2 a2 v2 l2 r2 => simp [AABBTree.beq, AABBTree.shape]
  | node2 a1 v1 l1 r1 ihl ihr =>
    cases t2 with
    | node0 a2 v2 => simp [AABBTree.beq, AABBTree.shape]
    | node2 a2 v2 l2 r2 =>
      simp [AABBTree.beq, AABBTree.shape, AABB.beq_iff, ihl, ihr, and_assoc]
